import Mathlib

/-!
Shallow embedding of `pulse.py`, a one-pass survey-report generator:
load a CSV, infer column roles, compute descriptive statistics and
score histograms over the question columns, and interpolate the results
into an HTML template.  Numeric cells are modelled as `Option ℚ`
(`none` = NaN / missing), comment cells as `Option String`, and the
fallible parts of the pipeline return `Option`.
-/

namespace Pulse

open scoped List

/-- Status colors from the CONFIG section of `pulse.py`. -/
def ACCENT : String := "#64748b"

/-- Green status color (`GOOD = "#1a7f37"`). -/
def GOOD : String := "#1a7f37"

/-- Gray status color (`NEUTRAL = "#8a8f98"`). -/
def NEUTRAL : String := "#8a8f98"

/-- Red status color (`BAD = "#d1242f"`). -/
def BAD : String := "#d1242f"

/-- Embedding of `score_color`: `pd.isna(score)` → NEUTRAL, `score >= 4.0` →
GOOD, `score >= 3.0` → NEUTRAL, else BAD.  A missing mean (NaN) is `none`. -/
def score_color (score : Option ℚ) : String :=
  match score with
  | none => NEUTRAL
  | some s => if 4 ≤ s then GOOD else if 3 ≤ s then NEUTRAL else BAD

/-! ## Loader model -/

/-- Raw CSV cell, as seen by `pd.to_numeric(..., errors="coerce")`:
either numeric-parseable, a non-numeric text, or already missing. -/
inductive RawCell where
  | num (q : ℚ)
  | text (s : String)
  | missing
deriving DecidableEq

/-- Embedding of `pd.to_numeric(df[c], errors="coerce")` on one cell:
parseable values keep their numeric value, anything else becomes
missing (NaN) instead of raising. -/
def to_numeric : RawCell → Option ℚ
  | RawCell.num q => some q
  | RawCell.text _ => none
  | RawCell.missing => none

/-- Lower-cased character sequence of a column name (Python `c.lower()`,
modelled on the character list). -/
def lowerData (c : String) : List Char :=
  c.data.map Char.toLower

/-- Predicate of `c.lower().startswith("timestamp")`. -/
def isTimestampName (c : String) : Bool :=
  "timestamp".data.isPrefixOf (lowerData c)

/-- Contiguous-substring test on character lists (Python `needle in hay`). -/
def containsData (needle : List Char) : List Char → Bool
  | [] => needle.isEmpty
  | a :: t => needle.isPrefixOf (a :: t) || containsData needle t

/-- Predicate of `"optional" in c.lower() or "comment" in c.lower()`. -/
def isCommentName (c : String) : Bool :=
  containsData "optional".data (lowerData c) || containsData "comment".data (lowerData c)

/-- Embedding of
`next((c for c in df.columns if c.lower().startswith("timestamp")), df.columns[0])`:
the first matching column name, defaulting to the first column.
`none` only when there are no columns at all (where the source would raise). -/
def timestamp_col (names : List String) : Option String :=
  (names.find? isTimestampName).orElse (fun _ => names.head?)

/-- Embedding of
`next((c for c in df.columns if "optional" in c.lower() or "comment" in c.lower()), None)`. -/
def comment_col (names : List String) : Option String :=
  names.find? isCommentName

/-- Embedding of `[c for c in df.columns if c not in {timestamp_col, comment_col}]`. -/
def question_cols (names : List String) : List String :=
  names.filter (fun c => !(timestamp_col names == some c) && !(comment_col names == some c))

/-! ## Aggregator model

Question data after coercion: a list of named columns, each column a list
of `Option ℚ` cells in row order. -/

/-- One coerced question column (`df[c]` after `pd.to_numeric`). -/
abbrev QCol := List (Option ℚ)

/-- The coerced question columns with their names, in DataFrame column order. -/
abbrev QData := List (String × QCol)

/-- Cell lists of the question columns, in column order. -/
def cells (cols : QData) : List QCol :=
  cols.map Prod.snd

/-- Non-missing values of one column (what `mean`/`median`/skipna see). -/
def colValues (col : QCol) : List ℚ :=
  col.filterMap id

/-- Embedding of `df[c].mean()`: arithmetic mean of the non-missing values,
NaN (`none`) when there are none. -/
def qmean (col : QCol) : Option ℚ :=
  let vs := colValues col
  if vs.isEmpty then none else some (vs.sum / (vs.length : ℚ))

/-- Number of rows of the (rectangular) question data: the longest column. -/
def nRows (m : List QCol) : ℕ :=
  (m.map List.length).foldr max 0

/-- One row-major pass per unit of fuel: emit the current first cell of every
column (skipping exhausted columns), then recurse on the column tails. -/
def stackAux : ℕ → List QCol → List (Option ℚ)
  | 0, _ => []
  | k + 1, m => (m.filterMap List.head?) ++ stackAux k (m.map List.tail)

/-- Row-major cell enumeration of the question columns, as
`df[question_cols].stack()` does it: the first row across all columns,
then the second row, and so on. -/
def stackRows (m : List QCol) : List (Option ℚ) :=
  stackAux (nRows m) m

/-- Embedding of `stacked = df[question_cols].stack(dropna=True)`:
all non-missing question values in row-major order. -/
def stacked (cols : QData) : List ℚ :=
  (stackRows (cells cols)).filterMap id

/-- Embedding of `overall_mean = float(stacked.mean()) if len(stacked) else nan`;
`none` models the NaN branch. -/
def overall_mean (cols : QData) : Option ℚ :=
  if (stacked cols).isEmpty then none
  else some ((stacked cols).sum / ((stacked cols).length : ℚ))

/-! ## Summary table and best/worst question (`summary.sort_values("Mean", ascending=False)`) -/

/-- The `(Question, Mean)` rows of the `summary` DataFrame, in column order.
The Median/Min/Max columns are not modelled: nothing downstream of the
claims reads them. -/
def summaryEntries (cols : QData) : List (String × Option ℚ) :=
  cols.map (fun p => (p.1, qmean p.2))

/-- Descending comparison on means as `sort_values("Mean", ascending=False,
na_position="last")` orders keys: a NaN (`none`) mean sorts after
everything, and `keyGE a b` says `a` may come before `b`. -/
def keyGE (a b : Option ℚ) : Bool :=
  match b with
  | none => true
  | some qb =>
    match a with
    | none => false
    | some qa => qb ≤ qa

/-- Stable insertion into a descending-sorted row list: the new row goes
after every row whose key is `≥` its own, which reproduces how pandas'
descending `sort_values` keeps equal keys (and trailing NaNs) in their
original row order. -/
def insertDesc (x : String × Option ℚ) : List (String × Option ℚ) → List (String × Option ℚ)
  | [] => [x]
  | y :: ys => if keyGE y.2 x.2 then y :: insertDesc x ys else x :: y :: ys

/-- Embedding of `summary.sort_values("Mean", ascending=False)` as a stable
descending insertion sort over the summary rows. -/
def sortDesc (l : List (String × Option ℚ)) : List (String × Option ℚ) :=
  l.foldl (fun acc e => insertDesc e acc) []

/-- Embedding of `best_q = summary.iloc[0]["Question"] if len(summary) else "-"`. -/
def best_q (cols : QData) : String :=
  match (sortDesc (summaryEntries cols)).head? with
  | some e => e.1
  | none => "-"

/-- Embedding of `worst_q = summary.iloc[-1]["Question"] if len(summary) else "-"`. -/
def worst_q (cols : QData) : String :=
  match (sortDesc (summaryEntries cols)).getLast? with
  | some e => e.1
  | none => "-"

/-! ## Pooled histogram, total answers, percentages, pie chart -/

/-- Round half to even, as NumPy/pandas `Series.round()` rounds floats. -/
def roundHalfEven (q : ℚ) : ℤ :=
  let f : ℤ := ⌊q⌋
  let r : ℚ := q - (f : ℚ)
  if r < 1 / 2 then f
  else if 1 / 2 < r then f + 1
  else if f % 2 = 0 then f else f + 1

/-- The pooled values after `stacked.round().astype(int)`. -/
def stackedRounded (cols : QData) : List ℤ :=
  (stacked cols).map roundHalfEven

/-- Embedding of
`stacked.round().astype(int).value_counts().reindex([1,2,3,4,5], fill_value=0)`:
for each score 1–5, the number of pooled rounded values equal to it
(zero for absent buckets, other values dropped by the reindex). -/
def dist_counts (cols : QData) : List ℕ :=
  ([1, 2, 3, 4, 5] : List ℤ).map (fun s => (stackedRounded cols).count s)

/-- Embedding of `total_answers = int(dist_df["Count"].sum())`. -/
def total_answers (cols : QData) : ℕ :=
  (dist_counts cols).sum

/-- Embedding of
`dist_df["Percent"] = (dist_df["Count"] / total_answers * 100) if total_answers else 0`:
the per-score percentage column, set to the scalar 0 on every row when the
total is zero instead of dividing. -/
def percents (cols : QData) : List ℚ :=
  if total_answers cols ≠ 0 then
    (dist_counts cols).map (fun c => (c : ℚ) / (total_answers cols : ℚ) * 100)
  else
    (dist_counts cols).map (fun _ => (0 : ℚ))

/-- The value interpolated into the "Total answers" KPI cell of the HTML
template, `{total_answers/5}` (Python true division). -/
def kpi_total_answers (cols : QData) : ℚ :=
  (total_answers cols : ℚ) / 5

/-- Embedding of the data fed to `px.bar` by `dist_chart(col_name)`:
`df[col_name].value_counts(dropna=False).reindex([1,2,3,4,5], fill_value=0)`.
No rounding happens here; a bucket counts the cells exactly equal to its
score, and the reindex drops every other key (including NaN). -/
def dist_chart_counts (col : QCol) : List ℕ :=
  ([1, 2, 3, 4, 5] : List ℚ).map (fun s => col.count (some s))

/-- Abstraction of the figure built by `pie_chart()`: either the single
"No data" placeholder slice with value 1, or the pooled score/count/percent
rows of `dist_df`. -/
inductive PieFig where
  | placeholder (label : String) (value : ℕ)
  | dist (scores : List ℤ) (counts : List ℕ) (percentList : List ℚ)
deriving DecidableEq

/-- Embedding of `pie_chart()`: the `total_answers == 0` branch produces the
placeholder figure, otherwise the pooled distribution is charted. -/
def pie_chart (cols : QData) : PieFig :=
  if total_answers cols = 0 then PieFig.placeholder "No data" 1
  else PieFig.dist [1, 2, 3, 4, 5] (dist_counts cols) (percents cols)

/-! ## Comments section -/

/-- Python `str.strip()`: drop whitespace from both ends. -/
def pyStrip (s : String) : String :=
  ⟨((s.data.dropWhile Char.isWhitespace).reverse.dropWhile Char.isWhitespace).reverse⟩

/-- Embedding of the filtered comments
`df[comment_col].dropna().astype(str).str.strip()` restricted to the
non-empty strings (`comments[comments != ""]`), in row order. -/
def comments_list (col : List (Option String)) : List String :=
  ((col.filterMap id).map pyStrip).filter (fun s => !(s == ""))

/-- One rendered comment, `f"<div class='comment'>“{c}”</div>"`: the cell
text is interpolated verbatim between typographic quotes, with no HTML
escaping. -/
def comment_block (c : String) : String :=
  "<div class=\x27comment\x27>“" ++ c ++ "”</div>"

/-- Python `"\n".join(...)`. -/
def joinLines : List String → String
  | [] => ""
  | [x] => x
  | x :: y :: xs => x ++ "\n" ++ joinLines (y :: xs)

/-- The `items` string of the comments section. -/
def comment_items (cs : List String) : String :=
  joinLines (cs.map comment_block)

/-- The comments `<section>` markup, with the comment count and the item
blocks interpolated into the fixed skeleton. -/
def comments_section (cs : List String) : String :=
  "\n        <section class=\"panel span-12\">\n          <div class=\"panel-header\">\n            <div class=\"panel-title\">Open-ended comments</div>\n            <div class=\"panel-subtitle\">"
    ++ toString cs.length
    ++ " comment(s)</div>\n          </div>\n          <div class=\"panel-body comments-grid\">\n            "
    ++ comment_items cs
    ++ "\n          </div>\n        </section>\n        "

/-- Embedding of the `comments_html` assembly: empty when there is no
comment column or no surviving comment, otherwise the full section. -/
def comments_html (commentData : Option (List (Option String))) : String :=
  match commentData with
  | none => ""
  | some col =>
    let cs := comments_list col
    if cs.isEmpty then "" else comments_section cs

/-! ## Spec-side definitions

These follow the wording of the specification (not the code) and exist to
be compared with the source-derived definitions above. -/

/-- Spec wording: the whitespace-trimmed non-missing, non-blank comment
entries, in original row order. -/
def specCommentBlocks (commentData : Option (List (Option String))) : List String :=
  match commentData with
  | none => []
  | some col =>
    col.filterMap (fun cell =>
      cell.bind (fun s => if pyStrip s == "" then none else some (pyStrip s)))

/-- Spec wording: the number of non-missing, non-blank entries of the
comment column. -/
def countNonBlank (commentData : Option (List (Option String))) : ℕ :=
  match commentData with
  | none => 0
  | some col =>
    col.countP (fun cell =>
      match cell with
      | some s => !(pyStrip s == "")
      | none => false)

/-- Spec wording: the arithmetic mean of a list of values. -/
def arithMean (l : List ℚ) : ℚ :=
  l.sum / (l.length : ℚ)

/-- Strict version of `keyGE`: `a` must come strictly before `b`. -/
def keyGT (a b : Option ℚ) : Bool :=
  keyGE a b && !(keyGE b a)

/-- Spec wording: the first row attaining the maximal mean (left fold that
only replaces the champion on a strictly greater key). -/
def firstMax (l : List (String × Option ℚ)) : Option (String × Option ℚ) :=
  l.foldl
    (fun acc e =>
      match acc with
      | none => some e
      | some b => if keyGT e.2 b.2 then some e else some b)
    none

/-- The last row attaining the minimal mean (left fold that replaces the
champion on every `≤`, so ties keep the later row). -/
def lastMin (l : List (String × Option ℚ)) : Option (String × Option ℚ) :=
  l.foldl
    (fun acc e =>
      match acc with
      | none => some e
      | some w => if keyGE w.2 e.2 then some e else some w)
    none

/-- Spec wording: `c` is the first element of `l` satisfying `p`. -/
def IsFirstWith (p : String → Bool) (l : List String) (c : String) : Prop :=
  ∃ i, ∃ h : i < l.length,
    l.get ⟨i, h⟩ = c ∧ p c = true ∧
      ∀ j (hj : j < i), p (l.get ⟨j, hj.trans h⟩) = false

/-! ## Helper lemmas -/

/-- Counting `some s` among the cells equals counting `s` among the
non-missing values. -/
theorem count_some_eq_count_colValues (col : QCol) (s : ℚ) :
    col.count (some s) = (colValues col).count s := by
  induction col with
  | nil => rfl
  | cons c t ih =>
    cases c with
    | none => simpa [colValues, List.count_cons] using ih
    | some v =>
      by_cases hv : v = s <;>
        simp [colValues, List.count_cons, List.filterMap_cons, hv, ih]

/-- Bucket counts over 1–5 partition a list of rationals whose members all
lie in {1,2,3,4,5}. -/
theorem sum_counts_of_mem_rat (vs : List ℚ)
    (h : ∀ v ∈ vs, v ∈ ([1, 2, 3, 4, 5] : List ℚ)) :
    (([1, 2, 3, 4, 5] : List ℚ).map (fun s => vs.count s)).sum = vs.length := by
  induction vs with
  | nil => rfl
  | cons v t ih =>
    have hv := h v (List.mem_cons_self ..)
    have iht := ih (fun x hx => h x (List.mem_cons_of_mem _ hx))
    simp only [List.mem_cons, List.not_mem_nil, or_false] at hv
    simp only [List.map_cons, List.map_nil, List.sum_cons, List.sum_nil,
      List.count_cons, List.length_cons] at iht ⊢
    rcases hv with rfl | rfl | rfl | rfl | rfl <;>
      norm_num <;> omega

/-- Bucket counts over 1–5 partition a list of integers whose members all
lie between 1 and 5. -/
theorem sum_counts_of_mem_int (r : List ℤ)
    (h : ∀ x ∈ r, 1 ≤ x ∧ x ≤ 5) :
    (([1, 2, 3, 4, 5] : List ℤ).map (fun s => r.count s)).sum = r.length := by
  induction r with
  | nil => rfl
  | cons x t ih =>
    have hx := h x (List.mem_cons_self ..)
    have iht := ih (fun y hy => h y (List.mem_cons_of_mem _ hy))
    have hx5 : x = 1 ∨ x = 2 ∨ x = 3 ∨ x = 4 ∨ x = 5 := by omega
    simp only [List.map_cons, List.map_nil, List.sum_cons, List.sum_nil,
      List.count_cons, List.length_cons] at iht ⊢
    rcases hx5 with rfl | rfl | rfl | rfl | rfl <;>
      norm_num <;> omega

/-- A permutation of the outer list of lists permutes the flattening. -/
theorem perm_flatten {l₁ l₂ : List (List α)} (h : l₁ ~ l₂) :
    l₁.flatten ~ l₂.flatten := by
  induction h with
  | nil => exact List.Perm.refl _
  | cons x _ ih => simpa using ih.append_left x
  | swap x y l =>
    simp only [List.flatten_cons]
    rw [← List.append_assoc, ← List.append_assoc]
    exact List.perm_append_comm.append_right _
  | trans _ _ ih₁ ih₂ => exact ih₁.trans ih₂

/-- Peeling the first row off the columns is a permutation of the whole:
the heads followed by the flattened tails permute the flattened columns. -/
theorem heads_append_tails_perm (m : List QCol) :
    (m.filterMap List.head?) ++ (m.map List.tail).flatten ~ m.flatten := by
  induction m with
  | nil => exact List.Perm.refl _
  | cons c t ih =>
    cases c with
    | nil => simpa using ih
    | cons a c' =>
      simp only [List.filterMap_cons, List.head?_cons, List.map_cons,
        List.tail_cons, List.flatten_cons, List.cons_append]
      refine List.Perm.cons a ?_
      calc t.filterMap List.head? ++ (c' ++ (t.map List.tail).flatten)
          ~ c' ++ (t.filterMap List.head? ++ (t.map List.tail).flatten) := by
            rw [← List.append_assoc, ← List.append_assoc]
            exact List.perm_append_comm.append_right _
        _ ~ c' ++ t.flatten := ih.append_left c'

/-- With enough fuel, the row-major enumeration permutes the flattened
columns. -/
theorem stackAux_perm_flatten :
    ∀ (k : ℕ) (m : List QCol), (∀ c ∈ m, c.length ≤ k) →
      stackAux k m ~ m.flatten := by
  intro k
  induction k with
  | zero =>
    intro m h
    have hnil : m.flatten = [] := by
      rw [List.flatten_eq_nil_iff]
      intro c hc
      exact List.length_eq_zero.mp (Nat.le_zero.mp (h c hc))
    rw [hnil]
    exact List.Perm.refl _
  | succ k ih =>
    intro m h
    have htails : ∀ c ∈ m.map List.tail, c.length ≤ k := by
      intro c hc
      obtain ⟨c₀, hc₀, rfl⟩ := List.mem_map.mp hc
      have := h c₀ hc₀
      simp only [List.length_tail]
      omega
    calc stackAux (k + 1) m
        = (m.filterMap List.head?) ++ stackAux k (m.map List.tail) := rfl
      _ ~ (m.filterMap List.head?) ++ (m.map List.tail).flatten :=
          (ih _ htails).append_left _
      _ ~ m.flatten := heads_append_tails_perm m

/-- Every column length is bounded by `nRows`. -/
theorem length_le_nRows (m : List QCol) : ∀ c ∈ m, c.length ≤ nRows m := by
  induction m with
  | nil => intro c hc; cases hc
  | cons c₀ t ih =>
    intro c hc
    rcases List.mem_cons.mp hc with rfl | hmem
    · exact le_max_left _ _
    · exact le_trans (ih c hmem) (le_max_right _ _)

/-- The row-major `stack` enumeration is a permutation of the flattened
columns. -/
theorem stackRows_perm_flatten (m : List QCol) : stackRows m ~ m.flatten :=
  stackAux_perm_flatten (nRows m) m (length_le_nRows m)

/-- Permuting the flattened cell lists permutes the pooled values. -/
theorem stacked_perm_of_flatten_perm {cols cols' : QData}
    (h : (cells cols).flatten ~ (cells cols').flatten) :
    stacked cols ~ stacked cols' := by
  have h₁ : stackRows (cells cols) ~ stackRows (cells cols') :=
    ((stackRows_perm_flatten _).trans h).trans (stackRows_perm_flatten _).symm
  exact h₁.filterMap id

/-- `overall_mean` only depends on the multiset of pooled values. -/
theorem overall_mean_congr {cols cols' : QData}
    (h : stacked cols ~ stacked cols') :
    overall_mean cols' = overall_mean cols := by
  have hl : (stacked cols).length = (stacked cols').length := h.length_eq
  have hs : (stacked cols).sum = (stacked cols').sum := h.sum_eq
  rw [overall_mean, overall_mean]
  by_cases hc : stacked cols = []
  · have hc' : stacked cols' = [] := by
      rw [← List.length_eq_zero, ← hl, List.length_eq_zero]; exact hc
    rw [if_pos (by simp [hc']), if_pos (by simp [hc])]
  · have hc' : stacked cols' ≠ [] := by
      intro e
      rw [e] at hl
      simp only [List.length_nil] at hl
      exact hc (List.length_eq_zero.mp hl)
    rw [if_neg (by simp [hc']), if_neg (by simp [hc]), hs, hl]

/-! ## Comment-section lemmas -/

/-- The code's filter-after-strip pipeline equals the spec's blocks: the
trimmed non-missing, non-blank entries in original order. -/
theorem comments_list_eq_specBlocks (col : List (Option String)) :
    comments_list col = specCommentBlocks (some col) := by
  induction col with
  | nil => rfl
  | cons cell t ih =>
    cases cell with
    | none => simpa [comments_list, specCommentBlocks, List.filterMap_cons] using ih
    | some s =>
      by_cases hb : pyStrip s = ""
      · simpa [comments_list, specCommentBlocks, List.filterMap_cons, hb] using ih
      · simpa [comments_list, specCommentBlocks, List.filterMap_cons, hb] using ih

/-- The filtered comment count equals the spec's non-blank entry count. -/
theorem comments_list_length (col : List (Option String)) :
    (comments_list col).length = countNonBlank (some col) := by
  induction col with
  | nil => rfl
  | cons cell t ih =>
    cases cell with
    | none => simpa [comments_list, countNonBlank, List.filterMap_cons] using ih
    | some s =>
      by_cases hb : pyStrip s = ""
      · simpa [comments_list, countNonBlank, List.filterMap_cons, hb] using ih
      · simpa [comments_list, countNonBlank, List.filterMap_cons, hb] using ih

set_option maxRecDepth 8000 in
/-- The rendered comments section is never the empty string. -/
theorem comments_section_ne_empty (cs : List String) :
    comments_section cs ≠ "" := by
  intro h
  have hlen := congrArg String.length h
  rw [comments_section] at hlen
  repeat rw [String.length_append] at hlen
  have h₁ : 0 <
      ("\n        <section class=\"panel span-12\">\n          <div class=\"panel-header\">\n            <div class=\"panel-title\">Open-ended comments</div>\n            <div class=\"panel-subtitle\">").length := by
    decide
  have h₀ : String.length "" = 0 := rfl
  rw [h₀] at hlen
  omega

/-! ## C8: column-role inference -/

/-- `find?` returning a hit means the hit is the first satisfying element. -/
theorem isFirstWith_of_find?_eq_some {p : String → Bool} {l : List String}
    {c : String} (h : l.find? p = some c) : IsFirstWith p l c := by
  induction l with
  | nil => cases h
  | cons a t ih =>
    by_cases hp : p a = true
    · rw [List.find?_cons_of_pos t hp] at h
      cases h
      exact ⟨0, by simp, rfl, hp, fun j hj => absurd hj (Nat.not_lt_zero j)⟩
    · rw [List.find?_cons_of_neg t hp] at h
      obtain ⟨i, hi, hget, hpc, hfirst⟩ := ih h
      refine ⟨i + 1, by simpa using hi, hget, hpc, ?_⟩
      intro j hj
      cases j with
      | zero => simpa using hp
      | succ k => exact hfirst k (by omega)

/-- C8: the timestamp column is the first whose lower-cased name starts
with "timestamp", defaulting to the first column; the comment column is
the first whose lower-cased name contains "optional" or "comment", absent
when none matches; the question columns are exactly the remaining columns;
and numeric coercion maps every unparseable cell to missing instead of
raising. -/
theorem claim8_column_roles (names : List String) :
    (∀ c, timestamp_col names = some c →
      IsFirstWith isTimestampName names c ∨
        ((∀ d ∈ names, isTimestampName d = false) ∧ names.head? = some c)) ∧
    (timestamp_col names = none ↔ names = []) ∧
    (∀ c, comment_col names = some c → IsFirstWith isCommentName names c) ∧
    (comment_col names = none ↔ ∀ d ∈ names, isCommentName d = false) ∧
    (∀ c, c ∈ question_cols names ↔
      c ∈ names ∧ timestamp_col names ≠ some c ∧ comment_col names ≠ some c) ∧
    (∀ cell : RawCell, (∀ q : ℚ, cell ≠ RawCell.num q) → to_numeric cell = none) := by
  refine ⟨?_, ?_, ?_, ?_, ?_, ?_⟩
  · intro c hc
    cases hf : names.find? isTimestampName with
    | some d =>
      rw [timestamp_col, hf] at hc
      cases hc
      exact Or.inl (isFirstWith_of_find?_eq_some hf)
    | none =>
      rw [timestamp_col, hf] at hc
      refine Or.inr ⟨?_, hc⟩
      intro d hd
      have := List.find?_eq_none.mp hf d hd
      simpa using this
  · constructor
    · intro h
      cases hf : names.find? isTimestampName with
      | some d => rw [timestamp_col, hf] at h; cases h
      | none =>
        rw [timestamp_col, hf] at h
        simpa using List.head?_eq_none_iff.mp h
    · intro h
      subst h
      rfl
  · intro c hc
    exact isFirstWith_of_find?_eq_some hc
  · rw [comment_col, List.find?_eq_none]
    constructor
    · intro h d hd
      simpa using h d hd
    · intro h d hd
      simp [h d hd]
  · intro c
    rw [question_cols, List.mem_filter]
    constructor
    · rintro ⟨hmem, hcond⟩
      rw [Bool.and_eq_true] at hcond
      refine ⟨hmem, ?_, ?_⟩
      · intro e
        rw [e] at hcond
        simpa using hcond.1
      · intro e
        rw [e] at hcond
        simpa using hcond.2
    · rintro ⟨hmem, hts, hcm⟩
      refine ⟨hmem, ?_⟩
      rw [Bool.and_eq_true]
      constructor
      · simpa using hts
      · simpa using hcm
  · intro cell h
    cases cell with
    | num q => exact absurd rfl (h q)
    | text s => rfl
    | missing => rfl

/-- C8 witness: a concrete header row with a timestamp column, a question
column and a comment column; and a non-numeric cell coerces to missing. -/
theorem claim8_witness :
    (IsFirstWith isTimestampName ["Timestamp", "Q1", "Any comment?"] "Timestamp" ∨
      ((∀ d ∈ ["Timestamp", "Q1", "Any comment?"], isTimestampName d = false) ∧
        ["Timestamp", "Q1", "Any comment?"].head? = some "Timestamp")) ∧
    IsFirstWith isCommentName ["Timestamp", "Q1", "Any comment?"] "Any comment?" ∧
    to_numeric (RawCell.text "n/a") = none :=
  ⟨(claim8_column_roles ["Timestamp", "Q1", "Any comment?"]).1 "Timestamp"
      (by with_unfolding_all decide),
   (claim8_column_roles ["Timestamp", "Q1", "Any comment?"]).2.2.1 "Any comment?"
      (by with_unfolding_all decide),
   (claim8_column_roles ["Timestamp", "Q1", "Any comment?"]).2.2.2.2.2
      (RawCell.text "n/a") (fun q hq => RawCell.noConfusion hq)⟩

/-! ## C7: presence of the comments section -/

/-- C7: the comments section is the empty string exactly when the comment
column has zero non-missing, non-blank entries (in particular when there is
no comment column); otherwise it is the section markup holding one block
per non-missing non-blank entry, whitespace-trimmed, in original row
order. -/
theorem claim7_comments_presence (commentData : Option (List (Option String))) :
    (comments_html commentData = "" ↔ countNonBlank commentData = 0) ∧
    (countNonBlank commentData ≠ 0 →
      comments_html commentData = comments_section (specCommentBlocks commentData)) := by
  cases commentData with
  | none => exact ⟨by simp [comments_html, countNonBlank], fun h => absurd rfl h⟩
  | some col =>
    have hlen := comments_list_length col
    have hblocks := comments_list_eq_specBlocks col
    constructor
    · constructor
      · intro h
        rw [comments_html] at h
        by_cases he : (comments_list col).isEmpty
        · rw [← hlen, List.length_eq_zero]
          exact List.isEmpty_iff.mp he
        · rw [if_neg he] at h
          exact absurd h (comments_section_ne_empty _)
      · intro h
        rw [← hlen, List.length_eq_zero] at h
        rw [comments_html, if_pos (by simp [h])]
    · intro h
      rw [← hlen] at h
      have hne : ¬ (comments_list col).isEmpty = true := by
        rw [List.isEmpty_iff]
        intro e
        exact h (by rw [e]; rfl)
      rw [comments_html, if_neg hne, hblocks]

/-- C7 witness: a column with one blank and one real comment renders the
section with the single trimmed block; an all-blank column renders
nothing. -/
theorem claim7_witness :
    comments_html (some [some "  ", some " ok ", none])
        = comments_section (specCommentBlocks (some [some "  ", some " ok ", none])) ∧
    comments_html (some [some "  ", none]) = "" :=
  ⟨(claim7_comments_presence (some [some "  ", some " ok ", none])).2
      (by with_unfolding_all decide),
   (claim7_comments_presence (some [some "  ", none])).1.mpr
      (by with_unfolding_all decide)⟩

/-! ## C10: verbatim comment interpolation -/

/-- Every member of a joined line list appears verbatim inside the join. -/
theorem mem_isInfix_joinLines (l : List String) (x : String) (hx : x ∈ l) :
    List.IsInfix x.data (joinLines l).data := by
  induction l with
  | nil => cases hx
  | cons y t ih =>
    cases t with
    | nil =>
      rcases List.mem_cons.mp hx with rfl | hm
      · exact ⟨[], [], by simp [joinLines]⟩
      · cases hm
    | cons z zs =>
      rcases List.mem_cons.mp hx with rfl | hm
      · exact ⟨[], ("\n" ++ joinLines (z :: zs)).data, by
          simp [joinLines, String.data_append]⟩
      · refine (ih hm).trans ⟨(y ++ "\n").data, [], ?_⟩
        simp [joinLines, String.data_append]

/-- C10: a rendered comment block is exactly the cell text wrapped in a
`div` and typographic quotes with no escaping, and every comment string
appears verbatim (as a contiguous substring) in the joined items and in
the full comments section. -/
theorem claim10_verbatim (cs : List String) (c : String) (hc : c ∈ cs) :
    (comment_block c).data
        = "<div class=\x27comment\x27>“".data ++ c.data ++ "”</div>".data ∧
    List.IsInfix c.data (comment_items cs).data ∧
    List.IsInfix c.data (comments_section cs).data := by
  have hblock : (comment_block c).data
      = "<div class=\x27comment\x27>“".data ++ c.data ++ "”</div>".data := by
    rw [comment_block]
    rw [String.data_append, String.data_append]
  have hinblock : List.IsInfix c.data (comment_block c).data :=
    ⟨"<div class=\x27comment\x27>“".data, "”</div>".data, by rw [hblock]⟩
  have hitems : List.IsInfix c.data (comment_items cs).data :=
    hinblock.trans
      (mem_isInfix_joinLines (cs.map comment_block) (comment_block c)
        (List.mem_map_of_mem _ hc))
  refine ⟨hblock, hitems, hitems.trans ?_⟩
  rw [comments_section]
  refine ⟨("\n        <section class=\"panel span-12\">\n          <div class=\"panel-header\">\n            <div class=\"panel-title\">Open-ended comments</div>\n            <div class=\"panel-subtitle\">"
      ++ toString cs.length
      ++ " comment(s)</div>\n          </div>\n          <div class=\"panel-body comments-grid\">\n            ").data,
    ("\n          </div>\n        </section>\n        ").data, ?_⟩
  simp only [String.data_append, List.append_assoc]

/-- C10 witness: a comment containing HTML markup appears unescaped. -/
theorem claim10_witness :
    (comment_block "x <b>bold</b>").data
        = "<div class=\x27comment\x27>“".data ++ "x <b>bold</b>".data ++ "”</div>".data ∧
    List.IsInfix "x <b>bold</b>".data (comment_items ["x <b>bold</b>"]).data ∧
    List.IsInfix "x <b>bold</b>".data (comments_section ["x <b>bold</b>"]).data :=
  claim10_verbatim ["x <b>bold</b>"] "x <b>bold</b>" (by simp)

/-! ## C1: per-question histogram sum -/

/-- C1 (amended): for a question column whose non-missing values all lie in
{1,2,3,4,5}, the per-question bar-chart bucket counts sum to the number of
non-missing values.  (Unlike the pooled histogram, `dist_chart` does not
round, so out-of-set values fall out of every bucket; see the
counterexample.) -/
theorem claim1_dist_chart_sum (col : QCol)
    (h : ∀ v ∈ colValues col, v ∈ ([1, 2, 3, 4, 5] : List ℚ)) :
    (dist_chart_counts col).sum = (colValues col).length := by
  have hrw : dist_chart_counts col
      = ([1, 2, 3, 4, 5] : List ℚ).map (fun s => (colValues col).count s) := by
    simp [dist_chart_counts, count_some_eq_count_colValues]
  rw [hrw, sum_counts_of_mem_rat _ h]

/-- C1 counterexample: a column holding the single non-missing value 4.5
has one non-missing value but empty buckets, because `dist_chart` counts
exact matches of 1–5 without rounding. -/
theorem claim1_cex :
    ¬ ((dist_chart_counts [some (9 / 2)]).sum = (colValues [some (9 / 2)]).length) := by
  with_unfolding_all decide

/-- C1 witness: the amended claim applied to a concrete column. -/
theorem claim1_witness :
    (dist_chart_counts [some 5, some 3, none]).sum
      = (colValues [some 5, some 3, none]).length :=
  claim1_dist_chart_sum [some 5, some 3, none] (by with_unfolding_all decide)

/-! ## C2: pooled histogram sum -/

/-- C2 (amended): whenever every pooled non-missing value rounds into 1–5
(in particular for in-range survey scores), the pooled histogram bucket
counts sum to the total number of non-missing values across all question
columns.  Values rounding outside 1–5 are dropped by the reindex; see the
counterexample. -/
theorem claim2_pooled_sum (cols : QData)
    (h : ∀ x ∈ stackedRounded cols, 1 ≤ x ∧ x ≤ 5) :
    (dist_counts cols).sum = (stacked cols).length := by
  have hlen : (stackedRounded cols).length = (stacked cols).length :=
    List.length_map _ _
  rw [dist_counts, sum_counts_of_mem_int _ h, hlen]

/-- C2 counterexample: a single pooled value 6 is non-missing but lands in
no bucket, so the bucket counts sum to 0 ≠ 1. -/
theorem claim2_cex :
    ¬ ((dist_counts [("Q1", [some 6])]).sum = (stacked [("Q1", [some 6])]).length) := by
  with_unfolding_all decide

/-- C2 witness: the amended claim applied to two concrete columns
(including a value 3.5 that rounds to 4, and a missing cell). -/
theorem claim2_witness :
    (dist_counts [("Q1", [some 1, some (7 / 2)]), ("Q2", [none, some 5])]).sum
      = (stacked [("Q1", [some 1, some (7 / 2)]), ("Q2", [none, some 5])]).length :=
  claim2_pooled_sum [("Q1", [some 1, some (7 / 2)]), ("Q2", [none, some 5])]
    (by with_unfolding_all decide)

/-! ## C3: the "Total answers" KPI -/

/-- C3: the value rendered in the "Total answers" KPI equals the sum of the
pooled histogram's bucket counts over the scores 1–5, divided by 5. -/
theorem claim3_kpi_division (cols : QData) :
    kpi_total_answers cols
      = ((∑ s ∈ Finset.Icc (1 : ℤ) 5, (stackedRounded cols).count s : ℕ) : ℚ) / 5 := by
  have hset : Finset.Icc (1 : ℤ) 5 = {1, 2, 3, 4, 5} := by decide
  have htot : total_answers cols
      = ∑ s ∈ Finset.Icc (1 : ℤ) 5, (stackedRounded cols).count s := by
    rw [hset]
    rw [Finset.sum_insert (by decide), Finset.sum_insert (by decide),
      Finset.sum_insert (by decide), Finset.sum_insert (by decide),
      Finset.sum_singleton]
    simp only [total_answers, dist_counts, List.map_cons, List.map_nil,
      List.sum_cons, List.sum_nil]
    omega
  rw [kpi_total_answers, htot]

/-! ## Sorting lemmas for the best/worst question -/

/-- `keyGE` is reflexive. -/
theorem keyGE_refl (a : Option ℚ) : keyGE a a = true := by
  cases a <;> simp [keyGE]

/-- `keyGE` is total. -/
theorem keyGE_total (a b : Option ℚ) : keyGE a b = true ∨ keyGE b a = true := by
  cases a <;> cases b <;> simp [keyGE] <;> exact le_total _ _

/-- `keyGE` is transitive. -/
theorem keyGE_trans {a b c : Option ℚ} (hab : keyGE a b = true)
    (hbc : keyGE b c = true) : keyGE a c = true := by
  cases a <;> cases b <;> cases c <;> simp [keyGE] at * <;> exact le_trans hbc hab

/-- A failed strict comparison flips into a non-strict one. -/
theorem keyGE_of_keyGT_eq_false {a b : Option ℚ} (h : keyGT a b = false) :
    keyGE b a = true := by
  rcases Bool.and_eq_false_iff.mp h with h' | h'
  · rcases keyGE_total a b with ht | ht
    · rw [ht] at h'; cases h'
    · exact ht
  · simpa using h'

/-- `insertDesc` never produces the empty list. -/
theorem insertDesc_ne_nil (x : String × Option ℚ)
    (s : List (String × Option ℚ)) : insertDesc x s ≠ [] := by
  cases s with
  | nil => simp [insertDesc]
  | cons y ys =>
    rw [insertDesc]
    split <;> simp

/-- Head of a stable descending insertion. -/
theorem head?_insertDesc (x : String × Option ℚ)
    (s : List (String × Option ℚ)) :
    (insertDesc x s).head? = some (match s.head? with
      | none => x
      | some y => if keyGE y.2 x.2 then y else x) := by
  cases s with
  | nil => rfl
  | cons y ys =>
    rw [insertDesc]
    split <;> simp_all

/-- `insertDesc` permutes a cons. -/
theorem insertDesc_perm (x : String × Option ℚ)
    (s : List (String × Option ℚ)) : List.Perm (insertDesc x s) (x :: s) := by
  induction s with
  | nil => exact List.Perm.refl _
  | cons y ys ih =>
    rw [insertDesc]
    by_cases hk : keyGE y.2 x.2 = true
    · rw [if_pos hk]
      exact (ih.cons y).trans (List.Perm.swap x y ys)
    · rw [if_neg hk]

/-- Inserting keeps a descending-sorted list descending-sorted. -/
theorem pairwise_insertDesc (x : String × Option ℚ)
    (s : List (String × Option ℚ))
    (hs : s.Pairwise (fun a b => keyGE a.2 b.2 = true)) :
    (insertDesc x s).Pairwise (fun a b => keyGE a.2 b.2 = true) := by
  induction s with
  | nil => simp [insertDesc]
  | cons y ys ih =>
    rw [List.pairwise_cons] at hs
    rw [insertDesc]
    by_cases hk : keyGE y.2 x.2 = true
    · rw [if_pos hk, List.pairwise_cons]
      refine ⟨?_, ih hs.2⟩
      intro a ha
      rcases List.mem_cons.mp ((insertDesc_perm x ys).mem_iff.mp ha) with rfl | hmem
      · exact hk
      · exact hs.1 a hmem
    · rw [if_neg hk, List.pairwise_cons]
      have hxy : keyGE x.2 y.2 = true := by
        rcases keyGE_total y.2 x.2 with ht | ht
        · exact absurd ht hk
        · exact ht
      refine ⟨?_, List.pairwise_cons.mpr hs⟩
      intro a ha
      rcases List.mem_cons.mp ha with rfl | hmem
      · exact hxy
      · exact keyGE_trans hxy (hs.1 a hmem)

/-- Last element of a stable descending insertion into a sorted list. -/
theorem getLast?_insertDesc (x : String × Option ℚ)
    (s : List (String × Option ℚ))
    (hs : s.Pairwise (fun a b => keyGE a.2 b.2 = true)) :
    (insertDesc x s).getLast? = some (match s.getLast? with
      | none => x
      | some w => if keyGE w.2 x.2 then x else w) := by
  induction s with
  | nil => rfl
  | cons y ys ih =>
    rw [List.pairwise_cons] at hs
    rw [insertDesc]
    by_cases hk : keyGE y.2 x.2 = true
    · rw [if_pos hk]
      obtain ⟨z, zs, hz⟩ : ∃ z zs, insertDesc x ys = z :: zs := by
        cases h : insertDesc x ys with
        | nil => exact absurd h (insertDesc_ne_nil x ys)
        | cons z zs => exact ⟨z, zs, rfl⟩
      rw [hz, List.getLast?_cons_cons, ← hz, ih hs.2]
      cases ys with
      | nil => simp [hk]
      | cons b bs => rw [List.getLast?_cons_cons]
    · rw [if_neg hk, List.getLast?_cons_cons]
      cases hlast : (y :: ys).getLast? with
      | none => simp at hlast
      | some w =>
        have hw : w ∈ y :: ys := List.mem_of_getLast?_eq_some hlast
        have hyw : keyGE y.2 w.2 = true := by
          rcases List.mem_cons.mp hw with rfl | hmem
          · exact keyGE_refl _
          · exact hs.1 w hmem
        have hwx : keyGE w.2 x.2 = false := by
          cases hkw : keyGE w.2 x.2 with
          | false => rfl
          | true => exact absurd (keyGE_trans hyw hkw) (by simpa using hk)
        simp [hwx]

/-- Folding one more row into the sort is an insertion. -/
theorem sortDesc_append (l : List (String × Option ℚ)) (x : String × Option ℚ) :
    sortDesc (l ++ [x]) = insertDesc x (sortDesc l) := by
  rw [sortDesc, sortDesc, List.foldl_append]
  rfl

/-- The sorted summary is descending-sorted. -/
theorem sortDesc_pairwise (l : List (String × Option ℚ)) :
    (sortDesc l).Pairwise (fun a b => keyGE a.2 b.2 = true) := by
  induction l using List.reverseRecOn with
  | nil => simp [sortDesc]
  | append_singleton l x ih =>
    rw [sortDesc_append]
    exact pairwise_insertDesc x (sortDesc l) ih

/-- Unfolding `firstMax` over one appended row. -/
theorem firstMax_append (l : List (String × Option ℚ)) (x : String × Option ℚ) :
    firstMax (l ++ [x]) = some (match firstMax l with
      | none => x
      | some b => if keyGT x.2 b.2 then x else b) := by
  rw [firstMax, firstMax, List.foldl_append]
  cases l.foldl
      (fun acc e =>
        match acc with
        | none => some e
        | some b => if keyGT e.2 b.2 then some e else some b)
      none with
  | none => rfl
  | some b =>
    simp only [List.foldl_cons, List.foldl_nil]
    split <;> rfl

/-- Unfolding `lastMin` over one appended row. -/
theorem lastMin_append (l : List (String × Option ℚ)) (x : String × Option ℚ) :
    lastMin (l ++ [x]) = some (match lastMin l with
      | none => x
      | some w => if keyGE w.2 x.2 then x else w) := by
  rw [lastMin, lastMin, List.foldl_append]
  cases l.foldl
      (fun acc e =>
        match acc with
        | none => some e
        | some w => if keyGE w.2 e.2 then some e else some w)
      none with
  | none => rfl
  | some w =>
    simp only [List.foldl_cons, List.foldl_nil]
    split <;> rfl

/-- The head of the descending sort is the `firstMax` of the rows. -/
theorem head?_sortDesc (l : List (String × Option ℚ)) :
    (sortDesc l).head? = firstMax l := by
  induction l using List.reverseRecOn with
  | nil => rfl
  | append_singleton l x ih =>
    rw [sortDesc_append, head?_insertDesc, firstMax_append, ← ih]
    cases (sortDesc l).head? with
    | none => rfl
    | some y =>
      by_cases hk : keyGE y.2 x.2 = true
      · have hgt : keyGT x.2 y.2 = false := by
          simp [keyGT, hk]
        simp [hk, hgt]
      · have hxy : keyGE x.2 y.2 = true := by
          rcases keyGE_total y.2 x.2 with ht | ht
          · exact absurd ht hk
          · exact ht
        have hgt : keyGT x.2 y.2 = true := by
          rw [keyGT, hxy]
          simpa using hk
        simp [hk, hgt]

/-- The last row of the descending sort is the `lastMin` of the rows. -/
theorem getLast?_sortDesc (l : List (String × Option ℚ)) :
    (sortDesc l).getLast? = lastMin l := by
  induction l using List.reverseRecOn with
  | nil => rfl
  | append_singleton l x ih =>
    rw [sortDesc_append, getLast?_insertDesc x _ (sortDesc_pairwise l),
      lastMin_append, ← ih]

/-- Accumulator invariant of the `firstMax` fold: the winner is the seed or
a list member, and its key dominates the seed and every member. -/
theorem firstMax_spec_aux (l : List (String × Option ℚ)) :
    ∀ (b c : String × Option ℚ),
      l.foldl
        (fun acc e =>
          match acc with
          | none => some e
          | some b' => if keyGT e.2 b'.2 then some e else some b')
        (some b) = some c →
      (c = b ∨ c ∈ l) ∧ keyGE c.2 b.2 = true ∧ ∀ e' ∈ l, keyGE c.2 e'.2 = true := by
  induction l with
  | nil =>
    intro b c h
    simp only [List.foldl_nil, Option.some.injEq] at h
    subst h
    exact ⟨Or.inl rfl, keyGE_refl _, by simp⟩
  | cons e t ih =>
    intro b c h
    simp only [List.foldl_cons] at h
    by_cases hgt : keyGT e.2 b.2 = true
    · rw [if_pos hgt] at h
      obtain ⟨hmem, hce, hall⟩ := ih e c h
      have heb : keyGE e.2 b.2 = true := ((Bool.and_eq_true _ _).mp hgt).1
      refine ⟨?_, keyGE_trans hce heb, ?_⟩
      · rcases hmem with rfl | hm
        · exact Or.inr (List.mem_cons_self ..)
        · exact Or.inr (List.mem_cons_of_mem _ hm)
      · intro e' he'
        rcases List.mem_cons.mp he' with rfl | hm
        · exact hce
        · exact hall e' hm
    · rw [if_neg hgt] at h
      obtain ⟨hmem, hcb, hall⟩ := ih b c h
      have hbe : keyGE b.2 e.2 = true :=
        keyGE_of_keyGT_eq_false (by simpa using hgt)
      refine ⟨?_, hcb, ?_⟩
      · rcases hmem with rfl | hm
        · exact Or.inl rfl
        · exact Or.inr (List.mem_cons_of_mem _ hm)
      · intro e' he'
        rcases List.mem_cons.mp he' with rfl | hm
        · exact keyGE_trans hcb hbe
        · exact hall e' hm

/-- The `firstMax` winner is a row attaining the maximal key. -/
theorem firstMax_spec (l : List (String × Option ℚ)) (e : String × Option ℚ)
    (h : firstMax l = some e) :
    e ∈ l ∧ ∀ e' ∈ l, keyGE e.2 e'.2 = true := by
  cases l with
  | nil => simp [firstMax] at h
  | cons b t =>
    rw [firstMax] at h
    simp only [List.foldl_cons] at h
    obtain ⟨hmem, _, hall⟩ := firstMax_spec_aux t b e h
    constructor
    · rcases hmem with rfl | hm
      · exact List.mem_cons_self ..
      · exact List.mem_cons_of_mem _ hm
    · intro e' he'
      rcases List.mem_cons.mp he' with rfl | hm
      · exact (firstMax_spec_aux t e' e h).2.1
      · exact hall e' hm

/-- Accumulator invariant of the `lastMin` fold. -/
theorem lastMin_spec_aux (l : List (String × Option ℚ)) :
    ∀ (b c : String × Option ℚ),
      l.foldl
        (fun acc e =>
          match acc with
          | none => some e
          | some w => if keyGE w.2 e.2 then some e else some w)
        (some b) = some c →
      (c = b ∨ c ∈ l) ∧ keyGE b.2 c.2 = true ∧ ∀ e' ∈ l, keyGE e'.2 c.2 = true := by
  induction l with
  | nil =>
    intro b c h
    simp only [List.foldl_nil, Option.some.injEq] at h
    subst h
    exact ⟨Or.inl rfl, keyGE_refl _, by simp⟩
  | cons e t ih =>
    intro b c h
    simp only [List.foldl_cons] at h
    by_cases hbe : keyGE b.2 e.2 = true
    · rw [if_pos hbe] at h
      obtain ⟨hmem, hec, hall⟩ := ih e c h
      refine ⟨?_, keyGE_trans hbe hec, ?_⟩
      · rcases hmem with rfl | hm
        · exact Or.inr (List.mem_cons_self ..)
        · exact Or.inr (List.mem_cons_of_mem _ hm)
      · intro e' he'
        rcases List.mem_cons.mp he' with rfl | hm
        · exact hec
        · exact hall e' hm
    · rw [if_neg hbe] at h
      obtain ⟨hmem, hbc, hall⟩ := ih b c h
      have heb : keyGE e.2 b.2 = true := by
        rcases keyGE_total b.2 e.2 with ht | ht
        · exact absurd ht hbe
        · exact ht
      refine ⟨?_, hbc, ?_⟩
      · rcases hmem with rfl | hm
        · exact Or.inl rfl
        · exact Or.inr (List.mem_cons_of_mem _ hm)
      · intro e' he'
        rcases List.mem_cons.mp he' with rfl | hm
        · exact keyGE_trans heb hbc
        · exact hall e' hm

/-- The `lastMin` winner is a row attaining the minimal key. -/
theorem lastMin_spec (l : List (String × Option ℚ)) (e : String × Option ℚ)
    (h : lastMin l = some e) :
    e ∈ l ∧ ∀ e' ∈ l, keyGE e'.2 e.2 = true := by
  cases l with
  | nil => simp [lastMin] at h
  | cons b t =>
    rw [lastMin] at h
    simp only [List.foldl_cons] at h
    obtain ⟨hmem, _, hall⟩ := lastMin_spec_aux t b e h
    constructor
    · rcases hmem with rfl | hm
      · exact List.mem_cons_self ..
      · exact List.mem_cons_of_mem _ hm
    · intro e' he'
      rcases List.mem_cons.mp he' with rfl | hm
      · exact (lastMin_spec_aux t e' e h).2.1
      · exact hall e' hm

/-! ## C4: best and worst question -/

/-- C4 (amended): the best question is the FIRST question in column order
attaining the maximal mean, while the worst question is the LAST question
in column order attaining the minimal mean — a tie for worst is broken by
last-seen order, not first-seen.  A question with no non-missing values
has an undefined (`none`) mean, which sorts below every defined mean.
The last two conjuncts state that the selected rows indeed attain the
maximum resp. minimum. -/
theorem claim4_best_worst (cols : QData) :
    (best_q cols = (match firstMax (summaryEntries cols) with
      | some e => e.1
      | none => "-")) ∧
    (worst_q cols = (match lastMin (summaryEntries cols) with
      | some e => e.1
      | none => "-")) ∧
    (∀ e, firstMax (summaryEntries cols) = some e →
      e ∈ summaryEntries cols ∧
        ∀ e' ∈ summaryEntries cols, keyGE e.2 e'.2 = true) ∧
    (∀ e, lastMin (summaryEntries cols) = some e →
      e ∈ summaryEntries cols ∧
        ∀ e' ∈ summaryEntries cols, keyGE e'.2 e.2 = true) := by
  refine ⟨?_, ?_, fun e he => firstMax_spec _ e he, fun e he => lastMin_spec _ e he⟩
  · rw [best_q, head?_sortDesc]
  · rw [worst_q, getLast?_sortDesc]

/-- C4 counterexample: two questions with the same mean 2.  The original
claim says ties are broken by first-seen order, so the worst question
should be "Q1"; the code reports "Q2" (stable descending sort keeps ties
in original order and `iloc[-1]` takes the last of them). -/
theorem claim4_cex :
    summaryEntries [("Q1", [some 2]), ("Q2", [some 2])]
        = [("Q1", some 2), ("Q2", some 2)] ∧
    best_q [("Q1", [some 2]), ("Q2", [some 2])] = "Q1" ∧
    worst_q [("Q1", [some 2]), ("Q2", [some 2])] = "Q2" := by
  with_unfolding_all decide

/-- C4 witness: the spec's own example (Q1 all 1s, Q2 all 5s) — the best
question attains the maximal mean and the worst the minimal one. -/
theorem claim4_witness :
    (best_q [("Q1", [some 1, some 1, some 1]), ("Q2", [some 5, some 5, some 5])] = "Q2") ∧
    (worst_q [("Q1", [some 1, some 1, some 1]), ("Q2", [some 5, some 5, some 5])] = "Q1") ∧
    (("Q2", some 5) ∈
        summaryEntries [("Q1", [some 1, some 1, some 1]), ("Q2", [some 5, some 5, some 5])] ∧
      ∀ e' ∈ summaryEntries
          [("Q1", [some 1, some 1, some 1]), ("Q2", [some 5, some 5, some 5])],
        keyGE (some 5) e'.2 = true) ∧
    (("Q1", some 1) ∈
        summaryEntries [("Q1", [some 1, some 1, some 1]), ("Q2", [some 5, some 5, some 5])] ∧
      ∀ e' ∈ summaryEntries
          [("Q1", [some 1, some 1, some 1]), ("Q2", [some 5, some 5, some 5])],
        keyGE e'.2 (some 1) = true) :=
  ⟨by
      rw [(claim4_best_worst
        [("Q1", [some 1, some 1, some 1]), ("Q2", [some 5, some 5, some 5])]).1]
      with_unfolding_all decide,
   by
      rw [(claim4_best_worst
        [("Q1", [some 1, some 1, some 1]), ("Q2", [some 5, some 5, some 5])]).2.1]
      with_unfolding_all decide,
   (claim4_best_worst
      [("Q1", [some 1, some 1, some 1]), ("Q2", [some 5, some 5, some 5])]).2.2.1
      ("Q2", some 5) (by with_unfolding_all decide),
   (claim4_best_worst
      [("Q1", [some 1, some 1, some 1]), ("Q2", [some 5, some 5, some 5])]).2.2.2
      ("Q1", some 1) (by with_unfolding_all decide)⟩

/-- C6: when at least one non-missing question value exists, the overall
mean is the arithmetic mean of all pooled non-missing values, and it is
unchanged by reordering the columns or by reordering the cells within each
column (which covers reordering the rows). -/
theorem claim6_overall_mean (cols : QData) :
    (stacked cols ≠ [] → overall_mean cols = some (arithMean (stacked cols))) ∧
    (∀ cols' : QData, List.Perm (cells cols) (cells cols') →
      overall_mean cols' = overall_mean cols) ∧
    (∀ cols' : QData, List.Forall₂ List.Perm (cells cols) (cells cols') →
      overall_mean cols' = overall_mean cols) := by
  refine ⟨fun hne => ?_, fun cols' hperm => ?_, fun cols' hperm => ?_⟩
  · rw [overall_mean, if_neg (by simp [hne]), arithMean]
  · exact overall_mean_congr (stacked_perm_of_flatten_perm (perm_flatten hperm))
  · exact overall_mean_congr
      (stacked_perm_of_flatten_perm (List.Perm.flatten_congr hperm))

/-- C6 witness: a concrete two-column table, its column-swapped variant and
its row-swapped variant all have the same overall mean, which equals the
pooled arithmetic mean. -/
theorem claim6_witness :
    (overall_mean [("Q1", [some 4, some 2]), ("Q2", [some 5, none])]
        = some (arithMean (stacked [("Q1", [some 4, some 2]), ("Q2", [some 5, none])]))) ∧
    (overall_mean [("Q2", [some 5, none]), ("Q1", [some 4, some 2])]
        = overall_mean [("Q1", [some 4, some 2]), ("Q2", [some 5, none])]) ∧
    (overall_mean [("Q1", [some 2, some 4]), ("Q2", [none, some 5])]
        = overall_mean [("Q1", [some 4, some 2]), ("Q2", [some 5, none])]) :=
  ⟨(claim6_overall_mean [("Q1", [some 4, some 2]), ("Q2", [some 5, none])]).1
      (by with_unfolding_all decide),
   (claim6_overall_mean [("Q1", [some 4, some 2]), ("Q2", [some 5, none])]).2.1
      [("Q2", [some 5, none]), ("Q1", [some 4, some 2])]
      (by with_unfolding_all decide),
   (claim6_overall_mean [("Q1", [some 4, some 2]), ("Q2", [some 5, none])]).2.2
      [("Q1", [some 2, some 4]), ("Q2", [none, some 5])]
      (by with_unfolding_all decide)⟩

/-! ## C9: zero-data safeguards -/

/-- C9: when the pooled answer count is zero, every per-score percentage is
the constant 0 (no division is attempted) and the pie chart is the single
"No data" placeholder slice. -/
theorem claim9_zero_safe (cols : QData) (h : total_answers cols = 0) :
    percents cols = [0, 0, 0, 0, 0] ∧
      pie_chart cols = PieFig.placeholder "No data" 1 := by
  constructor
  · rw [percents, if_neg (by simp [h])]
    simp [dist_counts]
  · rw [pie_chart, if_pos h]

/-- C9 witness: the empty dataset. -/
theorem claim9_witness :
    total_answers [] = 0 ∧
      (percents [] = [0, 0, 0, 0, 0] ∧
        pie_chart [] = PieFig.placeholder "No data" 1) :=
  ⟨by with_unfolding_all decide, claim9_zero_safe [] (by with_unfolding_all decide)⟩

/-! ## C5: score-to-color thresholds -/

/-- C5: `score_color` returns the good color for a score ≥ 4, the neutral
color for a score in [3, 4), the attention color below 3, and the neutral
color for a missing score. -/
theorem claim5_score_color_thresholds :
    (∀ q : ℚ, 4 ≤ q → score_color (some q) = GOOD) ∧
    (∀ q : ℚ, 3 ≤ q → q < 4 → score_color (some q) = NEUTRAL) ∧
    (∀ q : ℚ, q < 3 → score_color (some q) = BAD) ∧
    score_color none = NEUTRAL := by
  refine ⟨fun q hq => ?_, fun q h3 h4 => ?_, fun q h3 => ?_, rfl⟩
  · simp only [score_color, if_pos hq]
  · simp only [score_color]
    rw [if_neg (by linarith), if_pos h3]
  · simp only [score_color]
    rw [if_neg (by linarith), if_neg (by linarith)]

/-- C5 witness: the thresholds at the concrete scores 4, 3, 2.99 and a
missing score. -/
theorem claim5_witness :
    score_color (some 4) = GOOD ∧ score_color (some 3) = NEUTRAL ∧
      score_color (some (299 / 100)) = BAD ∧ score_color none = NEUTRAL :=
  ⟨claim5_score_color_thresholds.1 4 le_rfl,
   claim5_score_color_thresholds.2.1 3 le_rfl (by norm_num),
   claim5_score_color_thresholds.2.2.1 (299 / 100) (by norm_num),
   claim5_score_color_thresholds.2.2.2⟩

end Pulse
